import Mathlib

/-!
Verification of the token-tool repository (src/main/token_tool.py) against its
natural-language specification.

The Python source is shallowly embedded: pure computations become Lean
functions; the `random.choices(population, k=n)` primitive is modelled by an
arbitrary index stream `r : Nat → Nat`, each draw taking `population[r i % len]`
(every index stream denotes one possible sequence of uniform draws over the
population list); `random.choice(lst)` is modelled by an arbitrary index
reduced modulo the list length; the process clock is an arbitrary `t : Nat`;
the multi-threaded account-creation loop becomes a small-step state machine
driven by an explicit schedule (the list of worker ids picked by the
scheduler), with one atomic step per lock-protected region or per unprotected
shared-memory access, exactly following the statement order of the source.
Strings are modelled as `String`/`List Char`; thread locks have no separate
state (their effect is the atomicity granularity of the step relation).
-/

/-! ### Character sets (Python `string` module constants used by the source) -/
def ascii_lowercase : List Char := "abcdefghijklmnopqrstuvwxyz".toList

def ascii_letters : List Char :=
  "abcdefghijklmnopqrstuvwxyzABCDEFGHIJKLMNOPQRSTUVWXYZ".toList

def string_digits : List Char := "0123456789".toList

/-- Python `string.hexdigits`: note the letters appear twice (lower then upper). -/
def hexdigits : List Char := "0123456789abcdefABCDEF".toList

/-- Python `string.hexdigits.upper()`: the letters A–F appear twice. -/
def hexdigitsUpper : List Char := "0123456789ABCDEFABCDEF".toList

/-- Python `string.hexdigits.lower()`: the letters a–f appear twice. -/
def hexdigitsLower : List Char := "0123456789abcdefabcdef".toList

/-- The sixteen uppercase hexadecimal digits, each once. -/
def hexDigits16Upper : List Char := "0123456789ABCDEF".toList

/-- The sixteen lowercase hexadecimal digits, each once. -/
def hexDigits16Lower : List Char := "0123456789abcdef".toList

/-! ### Configuration constants of the source -/
def MAX_ACCOUNTS : Int := 1000

def TOKEN_LENGTH : Nat := 64

def USERNAME_LENGTH : Nat := 8

def PASSWORD_LENGTH : Nat := 12

def DOMAINS : List String :=
  ["gmail.com", "yahoo.com", "protonmail.com", "outlook.com"]

def USER_AGENTS : List String :=
  ["Mozilla/5.0 (Windows NT 10.0; Win64; x64) AppleWebKit/537.36 (KHTML, like Gecko) Chrome/91.0.4472.124 Safari/537.36",
   "Mozilla/5.0 (Macintosh; Intel Mac OS X 10_15_7) AppleWebKit/605.1.15 (KHTML, like Gecko) Version/14.1.1 Safari/605.1.15",
   "Mozilla/5.0 (X11; Linux x86_64; rv:89.0) Gecko/20100101 Firefox/89.0"]

/-! ### `random.choices` model -/
/-- Model of `''.join(random.choices(population, k=k))` as a `List Char`:
the `i`-th draw takes the element at index `r i % population.length`. -/
def choices (population : List Char) (k : Nat) (r : Nat → Nat) : List Char :=
  (List.range k).map (fun i => population.getD (r i % population.length) 'x')

/-- Offset an index stream, giving an independent stream for a later draw. -/
def shiftR (r : Nat → Nat) (o : Nat) : Nat → Nat :=
  fun i => r (o + i)

/-! ### TokenGenerator -/
structure TokenGenerator where
  generated : Nat

/-- Model of `TokenGenerator._generate_uuid`: five hyphen-joined draws from
`string.hexdigits.lower()` of sizes 8, 4, 4, 4 and 12. -/
def generate_uuid (r : Nat → Nat) : List Char :=
  List.intercalate ['-']
    [choices hexdigitsLower 8 (shiftR r 0),
     choices hexdigitsLower 4 (shiftR r 8),
     choices hexdigitsLower 4 (shiftR r 12),
     choices hexdigitsLower 4 (shiftR r 16),
     choices hexdigitsLower 12 (shiftR r 20)]

/-- Model of `TokenGenerator._generate_jwt`: plain-text header and payload joined with a
random hex "signature"; `t` is the clock value `int(time.time())`. -/
def generate_jwt (t : Nat) (r : Nat → Nat) : List Char :=
  let header := "\x7b\"alg\": \"HS256\", \"typ\": \"JWT\"\x7d".toList
  let payload :=
    "\x7b\"sub\": \"user_".toList ++ choices string_digits 9 (shiftR r 0) ++
    "\", \"iat\": ".toList ++ (toString t).toList ++
    ", \"exp\": ".toList ++ (toString (t + 3600)).toList ++ "\x7d".toList
  header ++ ('.' :: payload) ++ ('.' :: choices hexdigits 64 (shiftR r 9))

/-- Model of `TokenGenerator.generate`: increments the call counter (under the lock),
then dispatches on the token type, defaulting to alphanumeric. -/
def TokenGenerator.generate (g : TokenGenerator) (t : Nat) (r : Nat → Nat)
    (token_type : String) : List Char × TokenGenerator :=
  let g2 : TokenGenerator := { generated := g.generated + 1 }
  if token_type = "hex" then (choices hexdigitsUpper TOKEN_LENGTH r, g2)
  else if token_type = "numeric" then (choices string_digits TOKEN_LENGTH r, g2)
  else if token_type = "uuid" then (generate_uuid r, g2)
  else if token_type = "jwt" then (generate_jwt t r, g2)
  else (choices (ascii_letters ++ string_digits) TOKEN_LENGTH r, g2)

/-- A population list draws uniformly over a character set iff it only contains
characters of the set and gives every set member the same number of slots. -/
def uniformOver (population charset : List Char) : Prop :=
  (∀ c ∈ population, c ∈ charset) ∧
  ∃ k, 0 < k ∧ ∀ c ∈ charset, population.count c = k

/-! ### Decimal formatting: the Python f-string `f"{n:07d}"` -/
/-- The character for one decimal digit value. -/
def digitChar (n : Nat) : Char :=
  Char.ofNat (48 + n)

/-- The numeric value of a decimal digit character. -/
def charVal (c : Char) : Nat :=
  c.toNat - 48

/-- Decimal digits of `n`, most significant first; structural recursion on a
fuel argument so the definition evaluates by kernel reduction. -/
def natDigitsAux : Nat → Nat → List Char
  | 0, _ => []
  | fuel + 1, n =>
    if n < 10 then [digitChar n]
    else natDigitsAux fuel (n / 10) ++ [digitChar (n % 10)]

def natDigits (n : Nat) : List Char :=
  natDigitsAux (n + 1) n

/-- Model of `f"{n:07d}"`: the decimal digits of `n`, left-padded with zeros to width 7. -/
def pad7 (n : Nat) : List Char :=
  List.replicate (7 - (natDigits n).length) '0' ++ natDigits n

/-- The account id string `f"{service}_acc_{n:07d}"`. -/
def account_id (service : String) (n : Nat) : String :=
  service ++ "_acc_" ++ String.mk (pad7 n)

def decodeDigits (l : List Char) : Nat :=
  l.foldl (fun a c => 10 * a + charVal c) 0

/-! ### AccountCreator credential synthesis -/
def username_prefixes : List String :=
  ["user", "admin", "test", "demo", "temp"]

/-- Model of `AccountCreator._generate_username`: a random prefix (index `p` models
`random.choice`), an underscore, and `USERNAME_LENGTH - 4` random characters
over lowercase letters and digits. -/
def generate_username (p : Nat) (r : Nat → Nat) : String :=
  let pf := username_prefixes.getD (p % username_prefixes.length) ""
  let sf := String.mk (choices (ascii_lowercase ++ string_digits) (USERNAME_LENGTH - 4) r)
  pf ++ "_" ++ sf

def password_chars : List Char :=
  ascii_letters ++ string_digits ++ "!@#$%^&*".toList

/-- Model of `AccountCreator._generate_password`: `PASSWORD_LENGTH` random characters
over letters, digits and the eight symbols. -/
def generate_password (r : Nat → Nat) : String :=
  String.mk (choices password_chars PASSWORD_LENGTH r)

/-- Model of `AccountCreator._generate_email`: the username at a random domain. -/
def generate_email (username : String) (d : Nat) : String :=
  username ++ "@" ++ DOMAINS.getD (d % DOMAINS.length) ""

/-! ### AccountCreator (sequential view of `create_account`) -/
structure AccountCreator where
  created : Nat

structure AccountRecord where
  service : String
  account_id : String
  username : String
  password : String
  email : String
  created_at : String
  user_agent : String
  status : String

/-- Python truthiness of an optional string argument: `if not x` holds for an
omitted argument (`None`) and for the empty string alike. -/
def falsy : Option String → Bool
  | none => true
  | some s => s.isEmpty

/-- Model of `AccountCreator.create_account`. The rate-limiting sleep has no effect on
the state; randomness inputs: `p` picks the username prefix, `ru`/`rp` feed
the username-suffix and password draws, `d` picks the domain, `ua` the user
agent, `statusActive` models `random.random() > 0.1`, and `now` is the
formatted wall-clock time. The account id reads `created + 1` and the counter
is incremented (under the creator's lock). -/
def AccountCreator.create_account (a : AccountCreator) (service : String)
    (username password email : Option String)
    (p : Nat) (ru rp : Nat → Nat) (d : Nat) (now : String) (ua : Nat)
    (statusActive : Bool) : AccountRecord × AccountCreator :=
  let username := if falsy username then generate_username p ru else username.getD ""
  let password := if falsy password then generate_password rp else password.getD ""
  let email := if falsy email then generate_email username d else email.getD ""
  ({ service := service,
     account_id := account_id service (a.created + 1),
     username := username,
     password := password,
     email := email,
     created_at := now,
     user_agent := USER_AGENTS.getD (ua % USER_AGENTS.length) "",
     status := if statusActive then "active" else "pending" },
   { created := a.created + 1 })

/-! ### The multi-threaded `create_accounts` worker pool

Each worker thread of `create_accounts` runs the loop

  1. under the shared lock: if `len(accounts) >= num_accounts` return;
  2. `creator.create_account(service)`, which reads `self.created` WITHOUT the
     creator lock to build the account id, then increments `self.created`
     under the creator lock;
  3. under the shared lock: `accounts.append(account)` — the source appends
     unconditionally, with no re-check of the length.

A worker is therefore a four-state machine (`check`, `read`, `inc`,
`append`); a step of the whole system lets one scheduled worker perform its
next atomic action. Record contents other than the account-id sequence
number play no role in the claims, so the shared collection is modelled as
the list of sequence numbers in append order (`account_id` maps them to the
final id strings). -/
inductive Pc where
  | check
  | read
  | inc
  | append
  | done
deriving DecidableEq, Repr

structure WSt where
  pc : Pc
  myId : Nat
deriving DecidableEq, Repr

structure CSt where
  count : Int
  workers : List WSt
  accounts : List Nat
  created : Nat
deriving DecidableEq, Repr

/-- One atomic action of worker `i` (no-op for an absent or finished worker). -/
def step (s : CSt) (i : Nat) : CSt :=
  match s.workers.get? i with
  | none => s
  | some wk =>
    match wk.pc with
    | Pc.check =>
      if (s.accounts.length : Int) ≥ s.count then
        { s with workers := s.workers.set i ⟨Pc.done, wk.myId⟩ }
      else
        { s with workers := s.workers.set i ⟨Pc.read, wk.myId⟩ }
    | Pc.read => { s with workers := s.workers.set i ⟨Pc.inc, s.created + 1⟩ }
    | Pc.inc => { s with created := s.created + 1,
                         workers := s.workers.set i ⟨Pc.append, wk.myId⟩ }
    | Pc.append => { s with accounts := s.accounts ++ [wk.myId],
                            workers := s.workers.set i ⟨Pc.check, wk.myId⟩ }
    | Pc.done => s

/-- Run the pool under a schedule (the sequence of scheduled worker ids). -/
def run (s : CSt) (sched : List Nat) : CSt :=
  sched.foldl step s

/-- Initial state: `threads` workers at the top of the loop, empty shared
collection, fresh creator. -/
def init (num_accounts : Int) (threads : Nat) : CSt :=
  { count := num_accounts,
    workers := List.replicate threads ⟨Pc.check, 0⟩,
    accounts := [],
    created := 0 }

def doneW (wk : WSt) : Bool :=
  match wk.pc with
  | Pc.done => true
  | _ => false

/-- All workers have terminated (every `t.join()` has returned). -/
def allDone (s : CSt) : Bool :=
  s.workers.all doneW

/-- Model of `create_accounts`: refuse when the count exceeds `MAX_ACCOUNTS` (no file
is written, the ceiling error is printed); otherwise run the pool to the end
of the schedule; the final state's `accounts` list is what `json.dump`
serializes to the output file. -/
def create_accounts (num_accounts : Int) (threads : Nat) (sched : List Nat) :
    Option CSt :=
  if num_accounts > MAX_ACCOUNTS then none
  else some (run (init num_accounts threads) sched)

/-! ### Counting in-flight workers -/
/-- A worker that has passed the length check but not yet appended its record. -/
def pendingW (wk : WSt) : Bool :=
  match wk.pc with
  | Pc.read => true
  | Pc.inc => true
  | Pc.append => true
  | _ => false

def pendingCount (s : CSt) : Nat :=
  s.workers.countP pendingW

/-! ### The system invariant behind the length bounds -/
/-- Inductive invariant of the worker pool: the requested count and the pool
size are frozen, the collection length plus the number of in-flight workers
stays below `count + threads`, and as soon as some worker has terminated the
collection has reached the requested count. -/
structure InvC1 (n : Int) (w : Nat) (s : CSt) : Prop where
  hcount : s.count = n
  hw : s.workers.length = w
  hub : (s.accounts.length : Int) + (pendingCount s : Int) ≤ n + (w : Int) - 1
  hlb : ∀ wk ∈ s.workers, wk.pc = Pc.done → n ≤ (s.accounts.length : Int)

/-! ### The degenerate pool: requested count at most zero -/
/-- Invariant for a run with `count ≤ 0`: nothing is ever produced — the
collection stays empty, the creator's counter stays 0 and no worker gets past
its first length check. -/
structure Inv0 (n : Int) (s : CSt) : Prop where
  hcount : s.count = n
  hacc : s.accounts = []
  hcre : s.created = 0
  hwrk : ∀ wk ∈ s.workers, wk.pc = Pc.check ∨ wk.pc = Pc.done

/-! ### Single-worker trace: the ids are exactly 1, 2, …, count -/
def idSeq (k : Nat) : List Nat := List.range' 1 k

/-- Invariant of a run with exactly one worker: the collection is the sequence
`1, 2, …, len` in order, and the creator counter tracks the collection length
through each phase of the worker's loop. -/
structure Inv1 (n : Int) (s : CSt) : Prop where
  hcount : s.count = n
  hacc : s.accounts = idSeq s.accounts.length
  hwk : ∃ wk : WSt, s.workers = [wk] ∧
    ((wk.pc = Pc.check ∧ s.created = s.accounts.length) ∨
     (wk.pc = Pc.read ∧ s.created = s.accounts.length) ∨
     (wk.pc = Pc.inc ∧ s.created = s.accounts.length ∧ wk.myId = s.created + 1) ∨
     (wk.pc = Pc.append ∧ s.created = s.accounts.length + 1 ∧ wk.myId = s.created) ∨
     (wk.pc = Pc.done ∧ s.created = s.accounts.length))

/-! ## Theorems -/

theorem choices_length (population : List Char) (k : Nat) (r : Nat → Nat) :
    (choices population k r).length = k := by
  simp [choices]

theorem getD_mem_of_lt {l : List α} {i : Nat} (d : α) (h : i < l.length) :
    l.getD i d ∈ l := by
  rw [List.getD_eq_get? , List.get?_eq_get h]
  exact List.get_mem l i h

theorem choices_mem (population : List Char) (k : Nat) (r : Nat → Nat)
    (hpop : 0 < population.length) :
    ∀ c ∈ choices population k r, c ∈ population := by
  intro c hc
  simp only [choices, List.mem_map, List.mem_range] at hc
  obtain ⟨i, _, rfl⟩ := hc
  exact getD_mem_of_lt _ (Nat.mod_lt _ hpop)

/-! ### C4 -/
/-- C4 (amended). For the kinds alphanumeric, hex and numeric,
`TokenGenerator.generate` returns a string of length exactly 64 whose
characters lie in the kind's character set (letters+digits, the 16 uppercase
hex digits, the 10 decimal digits). The draw is uniform over the character set
for alphanumeric and numeric; for hex the population is
`string.hexdigits.upper() = "0123456789ABCDEFABCDEF"`, in which every letter
A–F occupies two slots and every decimal digit one, so hex characters are not
drawn uniformly from the 16 hex digits: each letter is twice as likely as each
digit. -/
theorem generate_basic_kinds_charsets (g : TokenGenerator) (t : Nat) (r : Nat → Nat) :
    ((g.generate t r "alphanumeric").1.length = 64 ∧
      ∀ c ∈ (g.generate t r "alphanumeric").1, c ∈ ascii_letters ++ string_digits) ∧
    ((g.generate t r "hex").1.length = 64 ∧
      ∀ c ∈ (g.generate t r "hex").1, c ∈ hexDigits16Upper) ∧
    ((g.generate t r "numeric").1.length = 64 ∧
      ∀ c ∈ (g.generate t r "numeric").1, c ∈ string_digits) ∧
    uniformOver (ascii_letters ++ string_digits) (ascii_letters ++ string_digits) ∧
    uniformOver string_digits string_digits ∧
    ¬ uniformOver hexdigitsUpper hexDigits16Upper ∧
    (∀ c ∈ hexdigitsUpper, c ∈ hexDigits16Upper) ∧
    hexdigitsUpper.count 'A' = 2 ∧ hexdigitsUpper.count '0' = 1 := by
  have halnum : (g.generate t r "alphanumeric").1 =
      choices (ascii_letters ++ string_digits) TOKEN_LENGTH r := by
    simp [TokenGenerator.generate]
  have hhex : (g.generate t r "hex").1 = choices hexdigitsUpper TOKEN_LENGTH r := by
    simp [TokenGenerator.generate]
  have hnum : (g.generate t r "numeric").1 = choices string_digits TOKEN_LENGTH r := by
    simp [TokenGenerator.generate]
  have hsub : ∀ c ∈ hexdigitsUpper, c ∈ hexDigits16Upper := by decide
  refine ⟨⟨?_, ?_⟩, ⟨?_, ?_⟩, ⟨?_, ?_⟩, ?_, ?_, ?_, hsub, by decide, by decide⟩
  · rw [halnum]; exact choices_length _ _ _
  · rw [halnum]; exact choices_mem _ _ _ (by decide)
  · rw [hhex]; exact choices_length _ _ _
  · rw [hhex]
    intro c hc
    exact hsub c (choices_mem _ _ _ (by decide) c hc)
  · rw [hnum]; exact choices_length _ _ _
  · rw [hnum]; exact choices_mem _ _ _ (by decide)
  · exact ⟨fun c hc => hc, 1, by decide, by decide⟩
  · exact ⟨fun c hc => hc, 1, by decide, by decide⟩
  · rintro ⟨-, k, -, hk⟩
    have h1 := hk 'A' (by decide)
    have h2 := hk '0' (by decide)
    have e1 : hexdigitsUpper.count 'A' = 2 := by decide
    have e2 : hexdigitsUpper.count '0' = 1 := by decide
    omega

/-- C4 witness: the theorem instantiated at a concrete generator, clock and
index stream, with a concrete character discharging the membership
hypothesis. -/
theorem generate_basic_kinds_charsets_witness :
    '0' ∈ hexDigits16Upper ∧ hexdigitsUpper.count 'A' = 2 := by
  have h := generate_basic_kinds_charsets ⟨0⟩ 0 (fun _ => 0)
  refine ⟨h.2.1.2 '0' ?_, h.2.2.2.2.2.2.2.1⟩
  decide

/-- C4 counterexample: drawing from `string.hexdigits.upper()` (the population
the hex branch of `TokenGenerator.generate` passes to `random.choices`) is not
uniform over the 16 hex digits, because 'A' fills two slots of the population
and '0' only one. -/
theorem hex_not_uniform_cex : ¬ uniformOver hexdigitsUpper hexDigits16Upper := by
  rintro ⟨-, k, -, hk⟩
  have h1 := hk 'A' (by decide)
  have h2 := hk '0' (by decide)
  have e1 : hexdigitsUpper.count 'A' = 2 := by decide
  have e2 : hexdigitsUpper.count '0' = 1 := by decide
  omega

/-! ### C5 -/
/-- C5. For every token type outside the five known kinds,
`TokenGenerator.generate` takes the final else branch and behaves exactly like
the alphanumeric kind: same returned string (64 characters over ASCII letters
and digits) and same state change, with no error. -/
theorem generate_unknown_kind_fallback (g : TokenGenerator) (t : Nat) (r : Nat → Nat)
    (token_type : String)
    (h : token_type ∉ (["alphanumeric", "hex", "numeric", "uuid", "jwt"] : List String)) :
    g.generate t r token_type = g.generate t r "alphanumeric" ∧
    (g.generate t r token_type).1.length = 64 ∧
    ∀ c ∈ (g.generate t r token_type).1, c ∈ ascii_letters ++ string_digits := by
  simp only [List.mem_cons, List.not_mem_nil, or_false, not_or] at h
  obtain ⟨-, h2, h3, h4, h5⟩ := h
  have he : g.generate t r token_type =
      (choices (ascii_letters ++ string_digits) TOKEN_LENGTH r,
        { generated := g.generated + 1 }) := by
    simp [TokenGenerator.generate, h2, h3, h4, h5]
  have ha : g.generate t r "alphanumeric" =
      (choices (ascii_letters ++ string_digits) TOKEN_LENGTH r,
        { generated := g.generated + 1 }) := by
    simp [TokenGenerator.generate]
  refine ⟨he.trans ha.symm, ?_, ?_⟩
  · rw [he]; exact choices_length _ _ _
  · rw [he]; exact choices_mem _ _ _ (by decide)

/-- C5 witness: the unknown kind "sessiontoken" falls back to alphanumeric. -/
theorem generate_unknown_kind_fallback_witness :
    TokenGenerator.generate ⟨0⟩ 0 (fun _ => 0) "sessiontoken" =
      TokenGenerator.generate ⟨0⟩ 0 (fun _ => 0) "alphanumeric" := by
  have h := generate_unknown_kind_fallback ⟨0⟩ 0 (fun _ => 0) "sessiontoken" (by decide)
  exact h.1

/-! ### C7 -/
/-- C7. Every uuid token is five hyphen-separated groups of lengths
8, 4, 4, 4 and 12, each character a lowercase hexadecimal digit (and no group
contains a hyphen, so the hyphen-split is exactly these five groups). -/
theorem generate_uuid_shape (g : TokenGenerator) (t : Nat) (r : Nat → Nat) :
    ∃ gs : List (List Char),
      (g.generate t r "uuid").1 = List.intercalate ['-'] gs ∧
      gs.map List.length = [8, 4, 4, 4, 12] ∧
      (∀ grp ∈ gs, ∀ c ∈ grp, c ∈ hexDigits16Lower) ∧
      (∀ grp ∈ gs, '-' ∉ grp) := by
  refine ⟨[choices hexdigitsLower 8 (shiftR r 0),
           choices hexdigitsLower 4 (shiftR r 8),
           choices hexdigitsLower 4 (shiftR r 12),
           choices hexdigitsLower 4 (shiftR r 16),
           choices hexdigitsLower 12 (shiftR r 20)], ?_, ?_, ?_, ?_⟩
  · simp [TokenGenerator.generate, generate_uuid]
  · simp [choices_length]
  · intro grp hgrp c hc
    have hsub : ∀ c ∈ hexdigitsLower, c ∈ hexDigits16Lower := by decide
    simp only [List.mem_cons, List.not_mem_nil, or_false] at hgrp
    rcases hgrp with rfl | rfl | rfl | rfl | rfl <;>
      exact hsub c (choices_mem _ _ _ (by decide) c hc)
  · intro grp hgrp hdash
    have hsub : ∀ c ∈ hexdigitsLower, c ∈ hexDigits16Lower := by decide
    simp only [List.mem_cons, List.not_mem_nil, or_false] at hgrp
    have hmem : '-' ∈ hexDigits16Lower := by
      rcases hgrp with rfl | rfl | rfl | rfl | rfl <;>
        exact hsub _ (choices_mem _ _ _ (by decide) _ hdash)
    exact absurd hmem (by decide)

/-- C7 witness: the uuid shape at a concrete generator and index stream. -/
theorem generate_uuid_shape_witness :
    ∃ gs : List (List Char),
      (TokenGenerator.generate ⟨0⟩ 0 (fun _ => 0) "uuid").1 = List.intercalate ['-'] gs ∧
      gs.map List.length = [8, 4, 4, 4, 12] ∧
      (∀ grp ∈ gs, ∀ c ∈ grp, c ∈ hexDigits16Lower) ∧
      (∀ grp ∈ gs, '-' ∉ grp) :=
  generate_uuid_shape ⟨0⟩ 0 (fun _ => 0)

/-! ### C8 -/
/-- C8. Every call to `TokenGenerator.generate`, whatever the token type,
replaces the generator state by exactly `{ generated := old + 1 }` (the
counter is the whole state, incremented by one), and the returned token is the
same for any two generator states: the counter is never used by the
generation logic. -/
theorem generate_counter_frame (g g' : TokenGenerator) (t : Nat) (r : Nat → Nat)
    (token_type : String) :
    (g.generate t r token_type).2 = { generated := g.generated + 1 } ∧
    (g.generate t r token_type).1 = (g'.generate t r token_type).1 := by
  unfold TokenGenerator.generate
  repeat' (first | exact ⟨rfl, rfl⟩ | split)

theorem charVal_digitChar : ∀ k < 10, charVal (digitChar k) = k := by
  decide

theorem decodeDigitsFrom_zeros (k : Nat) :
    (List.replicate k '0').foldl (fun a c => 10 * a + charVal c) 0 = 0 := by
  induction k with
  | zero => rfl
  | succ k ih =>
    rw [List.replicate_succ, List.foldl_cons]
    simpa using ih

theorem decodeDigits_natDigitsAux :
    ∀ fuel n, n < fuel → decodeDigits (natDigitsAux fuel n) = n := by
  intro fuel
  induction fuel with
  | zero => omega
  | succ fuel ih =>
    intro n hn
    by_cases h10 : n < 10
    · simp only [natDigitsAux, if_pos h10, decodeDigits, List.foldl_cons, List.foldl_nil]
      rw [charVal_digitChar n h10]
      omega
    · have hdiv : n / 10 < fuel := by
        have h1 : n / 10 < n := Nat.div_lt_self (by omega) (by omega)
        omega
      simp only [natDigitsAux, if_neg h10, decodeDigits, List.foldl_append,
        List.foldl_cons, List.foldl_nil]
      have := ih (n / 10) hdiv
      simp only [decodeDigits] at this
      rw [this, charVal_digitChar (n % 10) (Nat.mod_lt _ (by omega))]
      omega

theorem decodeDigits_pad7 (n : Nat) : decodeDigits (pad7 n) = n := by
  have h := decodeDigits_natDigitsAux (n + 1) n (Nat.lt_succ_self n)
  simp only [decodeDigits, pad7, List.foldl_append, decodeDigitsFrom_zeros]
  simpa [decodeDigits, natDigits] using h

theorem pad7_injective : Function.Injective pad7 := by
  intro n m h
  have := congrArg decodeDigits h
  rwa [decodeDigits_pad7, decodeDigits_pad7] at this

theorem account_id_injective (service : String) :
    Function.Injective (account_id service) := by
  intro n m h
  apply pad7_injective
  have hd := congrArg String.data h
  simp only [account_id, String.data_append] at hd
  exact List.append_cancel_left hd

theorem natDigitsAux_length :
    ∀ k fuel n, n < 10 ^ (k + 1) → (natDigitsAux fuel n).length ≤ k + 1 := by
  intro k
  induction k with
  | zero =>
    intro fuel n hn
    cases fuel with
    | zero => simp [natDigitsAux]
    | succ fuel =>
      have h10 : n < 10 := by simpa using hn
      simp [natDigitsAux, if_pos h10]
  | succ k ih =>
    intro fuel n hn
    cases fuel with
    | zero => simp [natDigitsAux]
    | succ fuel =>
      by_cases h10 : n < 10
      · simp [natDigitsAux, if_pos h10]
      · have hdiv : n / 10 < 10 ^ (k + 1) := by
          rw [Nat.div_lt_iff_lt_mul (by omega)]
          calc n < 10 ^ (k + 1 + 1) := hn
          _ = 10 ^ (k + 1) * 10 := by ring
        have := ih fuel (n / 10) hdiv
        simp only [natDigitsAux, if_neg h10, List.length_append, List.length_cons,
          List.length_nil]
        omega

theorem pad7_length {n : Nat} (h : n < 10 ^ 7) : (pad7 n).length = 7 := by
  have h6 : (natDigits n).length ≤ 7 := by
    have := natDigitsAux_length 6 (n + 1) n h
    simpa [natDigits] using this
  simp only [pad7, List.length_append, List.length_replicate]
  omega

/-! ### C6 -/
/-- C6. Every generated username is `{pf}_{sf}` with `pf` one of the five
prefixes and `sf` exactly `USERNAME_LENGTH - 4 = 4` lowercase-alphanumeric
characters regardless of the prefix length, so the total length is
`pf.length + 5`: 9 for the four-letter prefixes and 10 for "admin", not a
fixed 8. -/
theorem username_shape (p : Nat) (r : Nat → Nat) :
    ∃ pf ∈ username_prefixes, ∃ sf : List Char,
      generate_username p r = pf ++ "_" ++ String.mk sf ∧
      sf.length = USERNAME_LENGTH - 4 ∧ sf.length = 4 ∧
      (∀ c ∈ sf, c ∈ ascii_lowercase ++ string_digits) ∧
      (generate_username p r).length = pf.length + 5 ∧
      ((generate_username p r).length = 9 ∨ (generate_username p r).length = 10) := by
  have hlt : p % username_prefixes.length < username_prefixes.length := by
    exact Nat.mod_lt _ (by decide)
  refine ⟨username_prefixes.getD (p % username_prefixes.length) "",
    getD_mem_of_lt _ hlt,
    choices (ascii_lowercase ++ string_digits) (USERNAME_LENGTH - 4) r,
    rfl, choices_length _ _ _, choices_length _ _ _,
    choices_mem _ _ _ (by decide), ?_, ?_⟩
  · have hu : ("_" : String).length = 1 := rfl
    simp only [generate_username, String.length_append, String.length_mk,
      choices_length, USERNAME_LENGTH, hu]
  · have hmem := getD_mem_of_lt ("" : String) hlt
    have hp : ∀ pf ∈ username_prefixes, pf.length = 4 ∨ pf.length = 5 := by decide
    have hlen : (generate_username p r).length =
        (username_prefixes.getD (p % username_prefixes.length) "").length + 5 := by
      have hu : ("_" : String).length = 1 := rfl
      simp only [generate_username, String.length_append, String.length_mk,
        choices_length, USERNAME_LENGTH, hu]
    rcases hp _ hmem with h4 | h5
    · left; rw [hlen, h4]
    · right; rw [hlen, h5]

/-- C6 witness: the username shape at a concrete prefix index and stream. -/
theorem username_shape_witness :
    ∃ pf ∈ username_prefixes, ∃ sf : List Char,
      generate_username 1 (fun _ => 2) = pf ++ "_" ++ String.mk sf ∧
      sf.length = USERNAME_LENGTH - 4 ∧ sf.length = 4 ∧
      (∀ c ∈ sf, c ∈ ascii_lowercase ++ string_digits) ∧
      (generate_username 1 (fun _ => 2)).length = pf.length + 5 ∧
      ((generate_username 1 (fun _ => 2)).length = 9 ∨
        (generate_username 1 (fun _ => 2)).length = 10) :=
  username_shape 1 (fun _ => 2)

theorem generate_username_ne_empty (p : Nat) (r : Nat → Nat) :
    generate_username p r ≠ "" := by
  intro h
  have hlen := congrArg String.length h
  have hu : ("_" : String).length = 1 := rfl
  have h0 : ("" : String).length = 0 := rfl
  simp only [generate_username, String.length_append, String.length_mk,
    choices_length, hu, h0, USERNAME_LENGTH] at hlen
  omega

theorem generate_password_ne_empty (r : Nat → Nat) :
    generate_password r ≠ "" := by
  intro h
  have hlen := congrArg String.length h
  have h0 : ("" : String).length = 0 := rfl
  simp only [generate_password, String.length_mk, choices_length,
    PASSWORD_LENGTH, h0] at hlen
  omega

theorem generate_email_ne_empty (username : String) (d : Nat) :
    generate_email username d ≠ "" := by
  intro h
  have hlen := congrArg String.length h
  have ha : ("@" : String).length = 1 := rfl
  have h0 : ("" : String).length = 0 := rfl
  simp only [generate_email, String.length_append, ha, h0] at hlen
  omega

theorem ne_empty_of_not_falsy {s : Option String} (h : falsy s = false) :
    s.getD "" ≠ "" := by
  cases s with
  | none => simp [falsy] at h
  | some s =>
    intro hs
    simp only [Option.getD_some] at hs
    subst hs
    simp only [falsy] at h
    exact absurd h (by decide)

/-! ### C10 -/
/-- C10. Passing the empty string for username, password or email triggers
auto-generation exactly as if the argument had been omitted (Python `if not x`
tests falsiness, not absence), and no returned record has an empty username,
password or email: provided values are kept only when nonempty, and generated
values are never empty. -/
theorem create_account_empty_string_fields (a : AccountCreator) (service : String)
    (u pw em : Option String) (p : Nat) (ru rp : Nat → Nat) (d : Nat)
    (now : String) (ua : Nat) (st : Bool) :
    a.create_account service (some "") (some "") (some "") p ru rp d now ua st =
      a.create_account service none none none p ru rp d now ua st ∧
    (a.create_account service u pw em p ru rp d now ua st).1.username ≠ "" ∧
    (a.create_account service u pw em p ru rp d now ua st).1.password ≠ "" ∧
    (a.create_account service u pw em p ru rp d now ua st).1.email ≠ "" := by
  refine ⟨rfl, ?_, ?_, ?_⟩
  · simp only [AccountCreator.create_account]
    cases hf : falsy u with
    | true => simpa [hf] using generate_username_ne_empty p ru
    | false => simpa [hf] using ne_empty_of_not_falsy hf
  · simp only [AccountCreator.create_account]
    cases hf : falsy pw with
    | true => simpa [hf] using generate_password_ne_empty rp
    | false => simpa [hf] using ne_empty_of_not_falsy hf
  · simp only [AccountCreator.create_account]
    cases hf : falsy em with
    | true => simpa [hf] using generate_email_ne_empty _ d
    | false => simpa [hf] using ne_empty_of_not_falsy hf

/-- C10 witness: the empty-string call coincides with the omitted-argument
call, and the generated username of that record is nonempty. -/
theorem create_account_empty_string_fields_witness :
    AccountCreator.create_account ⟨0⟩ "custom" (some "") (some "") (some "")
        0 (fun _ => 0) (fun _ => 0) 0 "2025-01-01 00:00:00" 0 true =
      AccountCreator.create_account ⟨0⟩ "custom" none none none
        0 (fun _ => 0) (fun _ => 0) 0 "2025-01-01 00:00:00" 0 true ∧
    (AccountCreator.create_account ⟨0⟩ "custom" (some "") (some "") (some "")
        0 (fun _ => 0) (fun _ => 0) 0 "2025-01-01 00:00:00" 0 true).1.username ≠ "" :=
  have h := create_account_empty_string_fields ⟨0⟩ "custom" (some "") (some "")
    (some "") 0 (fun _ => 0) (fun _ => 0) 0 "2025-01-01 00:00:00" 0 true
  ⟨h.1, h.2.1⟩

theorem run_cons (s : CSt) (i : Nat) (sched : List Nat) :
    run s (i :: sched) = run (step s i) sched :=
  rfl

theorem run_append (s : CSt) (l1 l2 : List Nat) :
    run s (l1 ++ l2) = run (run s l1) l2 :=
  List.foldl_append ..

/-! ### Basic frame facts about `step` -/
theorem step_count (s : CSt) (i : Nat) : (step s i).count = s.count := by
  unfold step
  split
  · rfl
  · split <;> first | rfl | (split <;> rfl)

theorem step_workers_length (s : CSt) (i : Nat) :
    (step s i).workers.length = s.workers.length := by
  unfold step
  split
  · rfl
  · split <;> first
      | simp only [List.length_set]
      | (split <;> simp only [List.length_set])

theorem step_accounts_mono (s : CSt) (i : Nat) :
    ∃ tail, (step s i).accounts = s.accounts ++ tail := by
  unfold step
  split
  · exact ⟨[], by simp⟩
  · split
    · split <;> exact ⟨[], by simp⟩
    · exact ⟨[], by simp⟩
    · exact ⟨[], by simp⟩
    · exact ⟨_, rfl⟩
    · exact ⟨[], by simp⟩

/-! ### C3 -/
/-- C3. When the requested count exceeds the `MAX_ACCOUNTS = 1000` ceiling,
`create_accounts` refuses the entire operation before any worker is spawned:
the result is `none` — no worker pool, no record, no output file — and the
ceiling error is reported, for every thread count and schedule. -/
theorem create_accounts_ceiling (num_accounts : Int) (threads : Nat)
    (sched : List Nat) (h : num_accounts > MAX_ACCOUNTS) :
    create_accounts num_accounts threads sched = none := by
  simp [create_accounts, h]

/-- C3 witness: requesting 1001 accounts is refused outright. -/
theorem create_accounts_ceiling_witness :
    create_accounts 1001 5 [0, 1, 2, 3, 4] = none :=
  create_accounts_ceiling 1001 5 [0, 1, 2, 3, 4] (by decide)

/-! ### C1 counterexample -/
/-- C1 counterexample. `count = 1 ≤ 1000` with `workerCount = 2 ≥ 1`: both
workers pass the length check while the collection is still empty (step 2 of
each runs concurrently), and each then appends unconditionally — the source
has no re-check under the lock before the append. Under this schedule every
worker has terminated yet the shared collection holds 2 records, not
`count = 1`: the claimed invariant is violated. -/
theorem create_accounts_overshoot_cex :
    allDone (run (init 1 2) [0, 1, 0, 0, 0, 1, 1, 1, 0, 1]) = true ∧
    (run (init 1 2) [0, 1, 0, 0, 0, 1, 1, 1, 0, 1]).accounts.length = 2 := by
  constructor <;> rfl

/-! ### C2 counterexample -/
/-- C2 counterexample. `count = 2 ≤ 1000` with two workers: both read the
creator's `created` counter (outside the creator lock — only the increment is
locked) before either increments it, so both build the sequence number 1 and
the two records of the completed run carry the same account id
`custom_acc_0000001`: the ids are not distinct. -/
theorem account_id_collision_cex :
    allDone (run (init 2 2) [0, 1, 0, 1, 0, 1, 0, 1, 0, 1]) = true ∧
    ¬ ((run (init 2 2) [0, 1, 0, 1, 0, 1, 0, 1, 0, 1]).accounts.map
        (account_id "custom")).Nodup := by
  constructor
  · rfl
  · decide

theorem countP_set_eq (p : α → Bool) :
    ∀ (l : List α) (i : Nat) (a b : α), l.get? i = some a →
      (l.set i b).countP p + (if p a then 1 else 0) =
        l.countP p + (if p b then 1 else 0) := by
  intro l
  induction l with
  | nil => intro i a b h; simp at h
  | cons x xs ih =>
    intro i a b h
    cases i with
    | zero =>
      simp only [List.get?] at h
      injection h with h
      subst h
      simp only [List.set, List.countP_cons]
      omega
    | succ j =>
      simp only [List.get?] at h
      simp only [List.set, List.countP_cons]
      have := ih j a b h
      omega

theorem countP_lt_length_of_mem {p : α → Bool} :
    ∀ {l : List α} {a : α}, a ∈ l → p a = false → l.countP p < l.length := by
  intro l
  induction l with
  | nil => intro a h; simp at h
  | cons x xs ih =>
    intro a ha hpa
    have hle := List.countP_le_length (p := p) (l := xs)
    rw [List.countP_cons, List.length_cons]
    rcases List.mem_cons.mp ha with rfl | hmem
    · have h0 : (if p a then 1 else 0) = 0 := by simp [hpa]
      rw [h0]
      omega
    · have := ih hmem hpa
      split <;> omega

theorem allDone_pc {s : CSt} (h : allDone s = true) :
    ∀ wk ∈ s.workers, wk.pc = Pc.done := by
  intro wk hwk
  have hd := List.all_eq_true.mp h wk hwk
  unfold doneW at hd
  revert hd
  cases wk.pc <;> simp

theorem pendingCount_eq_zero_of_allDone {s : CSt} (h : allDone s = true) :
    pendingCount s = 0 := by
  apply List.countP_eq_zero.mpr
  intro wk hwk
  have hpc := allDone_pc h wk hwk
  simp [pendingW, hpc]

theorem InvC1_step (n : Int) (w : Nat) (s : CSt) (i : Nat) (h : InvC1 n w s) :
    InvC1 n w (step s i) := by
  obtain ⟨hcount, hw, hub, hlb⟩ := h
  unfold pendingCount at hub
  unfold step
  split
  · exact ⟨hcount, hw, by unfold pendingCount; exact hub, hlb⟩
  next wk hget =>
    have hwkmem : wk ∈ s.workers := List.get?_mem hget
    split
    next hpc =>
      -- wk.pc = Pc.check
      split
      next hge =>
        -- length already reached: the worker terminates
        have hcp := countP_set_eq pendingW s.workers i wk ⟨Pc.done, wk.myId⟩ hget
        simp [pendingW, hpc] at hcp
        refine ⟨hcount, by simp only [List.length_set]; exact hw, ?_, ?_⟩
        · show (s.accounts.length : Int) +
            ((s.workers.set i ⟨Pc.done, wk.myId⟩).countP pendingW : Int) ≤ n + w - 1
          omega
        · intro wk' hwk' hdone
          show n ≤ (s.accounts.length : Int)
          rcases List.mem_or_eq_of_mem_set hwk' with hold | rfl
          · exact hlb wk' hold hdone
          · rw [← hcount]; exact hge
      next hlt =>
        -- length below the target: the worker proceeds to create a record
        have hcp := countP_set_eq pendingW s.workers i wk ⟨Pc.read, wk.myId⟩ hget
        simp [pendingW, hpc] at hcp
        have hpw : pendingW wk = false := by unfold pendingW; rw [hpc]
        have hfew := countP_lt_length_of_mem hwkmem hpw
        rw [hcount] at hlt
        rw [hw] at hfew
        refine ⟨hcount, by simp only [List.length_set]; exact hw, ?_, ?_⟩
        · show (s.accounts.length : Int) +
            ((s.workers.set i ⟨Pc.read, wk.myId⟩).countP pendingW : Int) ≤ n + w - 1
          omega
        · intro wk' hwk' hdone
          show n ≤ (s.accounts.length : Int)
          rcases List.mem_or_eq_of_mem_set hwk' with hold | rfl
          · exact hlb wk' hold hdone
          · exact Pc.noConfusion hdone
    next hpc =>
      -- wk.pc = Pc.read
      have hcp := countP_set_eq pendingW s.workers i wk ⟨Pc.inc, s.created + 1⟩ hget
      simp [pendingW, hpc] at hcp
      refine ⟨hcount, by simp only [List.length_set]; exact hw, ?_, ?_⟩
      · show (s.accounts.length : Int) +
          ((s.workers.set i ⟨Pc.inc, s.created + 1⟩).countP pendingW : Int) ≤ n + w - 1
        omega
      · intro wk' hwk' hdone
        show n ≤ (s.accounts.length : Int)
        rcases List.mem_or_eq_of_mem_set hwk' with hold | rfl
        · exact hlb wk' hold hdone
        · exact Pc.noConfusion hdone
    next hpc =>
      -- wk.pc = Pc.inc
      have hcp := countP_set_eq pendingW s.workers i wk ⟨Pc.append, wk.myId⟩ hget
      simp [pendingW, hpc] at hcp
      refine ⟨hcount, by simp only [List.length_set]; exact hw, ?_, ?_⟩
      · show (s.accounts.length : Int) +
          ((s.workers.set i ⟨Pc.append, wk.myId⟩).countP pendingW : Int) ≤ n + w - 1
        omega
      · intro wk' hwk' hdone
        show n ≤ (s.accounts.length : Int)
        rcases List.mem_or_eq_of_mem_set hwk' with hold | rfl
        · exact hlb wk' hold hdone
        · exact Pc.noConfusion hdone
    next hpc =>
      -- wk.pc = Pc.append
      have hcp := countP_set_eq pendingW s.workers i wk ⟨Pc.check, wk.myId⟩ hget
      simp [pendingW, hpc] at hcp
      refine ⟨hcount, by simp only [List.length_set]; exact hw, ?_, ?_⟩
      · show ((s.accounts ++ [wk.myId]).length : Int) +
          ((s.workers.set i ⟨Pc.check, wk.myId⟩).countP pendingW : Int) ≤ n + w - 1
        simp only [List.length_append, List.length_cons, List.length_nil]
        push_cast
        omega
      · intro wk' hwk' hdone
        show n ≤ ((s.accounts ++ [wk.myId]).length : Int)
        simp only [List.length_append, List.length_cons, List.length_nil]
        push_cast
        rcases List.mem_or_eq_of_mem_set hwk' with hold | rfl
        · have := hlb wk' hold hdone
          omega
        · exact Pc.noConfusion hdone
    next hpc =>
      -- wk.pc = Pc.done
      exact ⟨hcount, hw, by unfold pendingCount; exact hub, hlb⟩

theorem InvC1_run (n : Int) (w : Nat) (sched : List Nat) :
    ∀ s, InvC1 n w s → InvC1 n w (run s sched) := by
  induction sched with
  | nil => intro s h; exact h
  | cons i t ih => intro s h; exact ih (step s i) (InvC1_step n w s i h)

theorem InvC1_init (n : Int) (w : Nat) (h0 : 0 ≤ n) (h1 : 1 ≤ w) :
    InvC1 n w (init n w) := by
  refine ⟨rfl, by simp [init], ?_, ?_⟩
  · have hp : pendingCount (init n w) = 0 := by
      apply List.countP_eq_zero.mpr
      intro wk hwk
      have := List.eq_of_mem_replicate hwk
      subst this
      simp [pendingW]
    rw [hp]
    show ((([] : List Nat)).length : Int) + ((0 : Nat) : Int) ≤ n + w - 1
    simp only [List.length_nil]
    omega
  · intro wk hwk hdone
    have := List.eq_of_mem_replicate hwk
    subst this
    exact absurd hdone (by decide)

theorem run_length_bounds (n : Int) (w : Nat) (sched : List Nat)
    (h0 : 0 ≤ n) (h1 : 1 ≤ w)
    (hdone : allDone (run (init n w) sched) = true) :
    n ≤ ((run (init n w) sched).accounts.length : Int) ∧
    ((run (init n w) sched).accounts.length : Int) ≤ n + (w : Int) - 1 := by
  obtain ⟨hcount, hw, hub, hlb⟩ := InvC1_run n w sched (init n w) (InvC1_init n w h0 h1)
  constructor
  · have hpos : 0 < (run (init n w) sched).workers.length := by omega
    obtain ⟨wk, hwk⟩ := List.exists_mem_of_length_pos hpos
    exact hlb wk hwk (allDone_pc hdone wk hwk)
  · have hp0 := pendingCount_eq_zero_of_allDone hdone
    rw [hp0] at hub
    simpa using hub

/-! ### C1 -/
/-- C1 (amended). For a terminated run of the pool with `0 ≤ count` and
`workerCount ≥ 1`, the shared collection holds at least `count` records, but
— because a worker appends without re-checking the length under the lock —
possibly more: the length is only bounded by `count + workerCount - 1`, and it
equals `count` exactly when there is a single worker. -/
theorem create_accounts_length_bounds (n : Int) (w : Nat) (sched : List Nat)
    (h0 : 0 ≤ n) (h1 : 1 ≤ w)
    (hdone : allDone (run (init n w) sched) = true) :
    n ≤ ((run (init n w) sched).accounts.length : Int) ∧
    ((run (init n w) sched).accounts.length : Int) ≤ n + (w : Int) - 1 ∧
    (w = 1 → ((run (init n w) sched).accounts.length : Int) = n) := by
  obtain ⟨hl, hu⟩ := run_length_bounds n w sched h0 h1 hdone
  refine ⟨hl, hu, ?_⟩
  intro hw1
  subst hw1
  simp only [Nat.cast_one] at hu
  omega

/-- C1 witness: a single worker creating two accounts to completion — the
bounds give exactly two records. -/
theorem create_accounts_length_bounds_witness :
    (2 : Int) ≤ ((run (init 2 1) (List.replicate 9 0)).accounts.length : Int) ∧
    ((run (init 2 1) (List.replicate 9 0)).accounts.length : Int) ≤
      2 + ((1 : Nat) : Int) - 1 ∧
    ((1 : Nat) = 1 → ((run (init 2 1) (List.replicate 9 0)).accounts.length : Int) = 2) :=
  create_accounts_length_bounds 2 1 (List.replicate 9 0) (by decide) (by decide)
    (by decide)

/-! ### Pointwise `get?` helpers for the pool -/
theorem get?_set_self : ∀ (l : List α) (i : Nat) (a : α), i < l.length →
    (l.set i a).get? i = some a := by
  intro l
  induction l with
  | nil => intro i a h; simp at h
  | cons x xs ih =>
    intro i a h
    cases i with
    | zero => rfl
    | succ j => exact ih j a (by simpa using h)

theorem get?_set_ne : ∀ (l : List α) (i k : Nat) (a : α), i ≠ k →
    (l.set i a).get? k = l.get? k := by
  intro l
  induction l with
  | nil => intro i k a h; rfl
  | cons x xs ih =>
    intro i k a h
    cases i with
    | zero =>
      cases k with
      | zero => exact absurd rfl h
      | succ k2 => rfl
    | succ j =>
      cases k with
      | zero => rfl
      | succ k2 => exact ih j k2 a (by omega)

theorem step_get?_other (s : CSt) (i k : Nat) (h : i ≠ k) :
    (step s i).workers.get? k = s.workers.get? k := by
  unfold step
  split
  · rfl
  · split
    · split
      · exact get?_set_ne _ _ _ _ h
      · exact get?_set_ne _ _ _ _ h
    · exact get?_set_ne _ _ _ _ h
    · exact get?_set_ne _ _ _ _ h
    · exact get?_set_ne _ _ _ _ h
    · rfl

theorem step_done_stays (s : CSt) (i k : Nat) (idv : Nat)
    (hg : s.workers.get? k = some ⟨Pc.done, idv⟩) :
    (step s i).workers.get? k = some ⟨Pc.done, idv⟩ := by
  by_cases hik : i = k
  · subst hik
    unfold step
    rw [hg]
    exact hg
  · rw [step_get?_other s i k hik]
    exact hg

theorem run_done_stays (sched : List Nat) :
    ∀ (s : CSt) (k idv : Nat), s.workers.get? k = some ⟨Pc.done, idv⟩ →
      (run s sched).workers.get? k = some ⟨Pc.done, idv⟩ := by
  induction sched with
  | nil => intro s k idv h; exact h
  | cons i t ih =>
    intro s k idv h
    exact ih (step s i) k idv (step_done_stays s i k idv h)

theorem run_workers_length (sched : List Nat) :
    ∀ s : CSt, (run s sched).workers.length = s.workers.length := by
  induction sched with
  | nil => intro s; rfl
  | cons i t ih =>
    intro s
    rw [run_cons, ih, step_workers_length]

theorem Inv0_step (n : Int) (s : CSt) (i : Nat) (hn : n ≤ 0) (h : Inv0 n s) :
    Inv0 n (step s i) := by
  obtain ⟨hcount, hacc, hcre, hwrk⟩ := h
  unfold step
  split
  · exact ⟨hcount, hacc, hcre, hwrk⟩
  next wk hget =>
    have hwkmem := List.get?_mem hget
    obtain ⟨pcv, idv⟩ := wk
    rcases hwrk _ hwkmem with hpc | hpc
    · have hpc' : pcv = Pc.check := hpc
      subst hpc'
      show Inv0 n (if (s.accounts.length : Int) ≥ s.count then
          { s with workers := s.workers.set i ⟨Pc.done, idv⟩ }
        else { s with workers := s.workers.set i ⟨Pc.read, idv⟩ })
      have hcond : (s.accounts.length : Int) ≥ s.count := by
        rw [hacc, hcount]
        simpa using hn
      rw [if_pos hcond]
      refine ⟨hcount, hacc, hcre, ?_⟩
      intro wk' hwk'
      rcases List.mem_or_eq_of_mem_set hwk' with hold | rfl
      · exact hwrk wk' hold
      · right; rfl
    · have hpc' : pcv = Pc.done := hpc
      subst hpc'
      exact ⟨hcount, hacc, hcre, hwrk⟩

theorem Inv0_run (n : Int) (sched : List Nat) (hn : n ≤ 0) :
    ∀ s, Inv0 n s → Inv0 n (run s sched) := by
  induction sched with
  | nil => intro s h; exact h
  | cons i t ih => intro s h; exact ih (step s i) (Inv0_step n s i hn h)

theorem Inv0_init (n : Int) (w : Nat) : Inv0 n (init n w) := by
  refine ⟨rfl, rfl, rfl, ?_⟩
  intro wk hwk
  have := List.eq_of_mem_replicate hwk
  subst this
  left
  rfl

theorem Inv0_step_done (n : Int) (s : CSt) (i : Nat) (hn : n ≤ 0) (h : Inv0 n s)
    (wk : WSt) (hg : s.workers.get? i = some wk) :
    (step s i).workers.get? i = some ⟨Pc.done, wk.myId⟩ := by
  have hwkmem := List.get?_mem hg
  have hlt : i < s.workers.length := by
    by_contra hge
    rw [List.get?_eq_none.mpr (by omega)] at hg
    exact Option.noConfusion hg
  obtain ⟨pcv, idv⟩ := wk
  rcases h.hwrk _ hwkmem with hpc | hpc
  · have hpc' : pcv = Pc.check := hpc
    subst hpc'
    unfold step
    rw [hg]
    show (if (s.accounts.length : Int) ≥ s.count then
        { s with workers := s.workers.set i ⟨Pc.done, idv⟩ }
      else { s with workers := s.workers.set i ⟨Pc.read, idv⟩ }).workers.get? i =
        some ⟨Pc.done, idv⟩
    have hcond : (s.accounts.length : Int) ≥ s.count := by
      rw [h.hacc, h.hcount]
      simpa using hn
    rw [if_pos hcond]
    exact get?_set_self _ _ _ hlt
  · have hpc' : pcv = Pc.done := hpc
    subst hpc'
    unfold step
    rw [hg]
    exact hg

theorem Inv0_run_scheduled_done (n : Int) (hn : n ≤ 0) :
    ∀ (sched : List Nat) (s : CSt), Inv0 n s →
      ∀ i wk, i ∈ sched → (run s sched).workers.get? i = some wk →
        wk.pc = Pc.done := by
  intro sched
  induction sched with
  | nil =>
    intro s h i wk hmem
    simp at hmem
  | cons a t ih =>
    intro s h i wk hmem hget
    rw [run_cons] at hget
    rcases List.mem_cons.mp hmem with rfl | hmemt
    · cases hg : s.workers.get? i with
      | none =>
        have hge : s.workers.length ≤ i := List.get?_eq_none.mp hg
        have hlen1 : (step s i).workers.length = s.workers.length :=
          step_workers_length s i
        have hlen2 : (run (step s i) t).workers.length = (step s i).workers.length :=
          run_workers_length t (step s i)
        rw [List.get?_eq_none.mpr (by omega)] at hget
        exact Option.noConfusion hget
      | some wk0 =>
        have h1 := Inv0_step_done n s i hn h wk0 hg
        have h2 := run_done_stays t (step s i) i wk0.myId h1
        rw [h2] at hget
        injection hget with hw
        rw [← hw]
    · exact ih (step s a) (Inv0_step n s a hn h) i wk hmemt hget

/-! ### C9 -/
/-- C9. For a requested count of zero — or any non-positive count —
`create_accounts` neither refuses nor raises: the ceiling check passes, every
worker's first lock-protected length check finds `len(accounts) ≥ count`
already satisfied and terminates the worker without creating anything (every
scheduled worker is in its terminated state after the run, the collection
stays empty and the creator counter stays 0), and the output file is still
written, containing the serialization of the empty collection — an empty
JSON array. -/
theorem create_accounts_nonpositive_count (n : Int) (w : Nat) (sched : List Nat)
    (hn : n ≤ 0) :
    create_accounts n w sched = some (run (init n w) sched) ∧
    (run (init n w) sched).accounts = [] ∧
    (run (init n w) sched).created = 0 ∧
    (∀ i wk, i ∈ sched → (run (init n w) sched).workers.get? i = some wk →
      wk.pc = Pc.done) := by
  have hinv := Inv0_run n sched hn (init n w) (Inv0_init n w)
  refine ⟨?_, hinv.hacc, hinv.hcre, ?_⟩
  · unfold create_accounts
    rw [if_neg]
    show ¬ n > (1000 : Int)
    omega
  · exact Inv0_run_scheduled_done n hn sched (init n w) (Inv0_init n w)

/-- C9 witness: zero requested accounts with two workers, both scheduled:
the file is written with the empty collection and the scheduled workers are
terminated. -/
theorem create_accounts_nonpositive_count_witness :
    create_accounts 0 2 [0, 1] = some (run (init 0 2) [0, 1]) ∧
    (run (init 0 2) [0, 1]).accounts = [] ∧
    (run (init 0 2) [0, 1]).created = 0 ∧
    (∀ i wk, i ∈ ([0, 1] : List Nat) →
      (run (init 0 2) [0, 1]).workers.get? i = some wk → wk.pc = Pc.done) :=
  create_accounts_nonpositive_count 0 2 [0, 1] (by decide)

theorem idSeq_concat (k : Nat) : idSeq (k + 1) = idSeq k ++ [k + 1] := by
  unfold idSeq
  rw [List.range'_concat]
  simp [Nat.add_comm]

theorem Inv1_step (n : Int) (s : CSt) (i : Nat) (h : Inv1 n s) :
    Inv1 n (step s i) := by
  obtain ⟨hcount, hacc, wk, hws, hcase⟩ := h
  cases i with
  | succ j =>
    have hget : s.workers.get? (j + 1) = none := by rw [hws]; rfl
    unfold step
    rw [hget]
    exact ⟨hcount, hacc, wk, hws, hcase⟩
  | zero =>
    have hget : s.workers.get? 0 = some wk := by rw [hws]; rfl
    have hset : ∀ X : WSt, s.workers.set 0 X = [X] := by
      intro X
      rw [hws]
      rfl
    obtain ⟨pcv, idv⟩ := wk
    unfold step
    rw [hget]
    rcases hcase with ⟨hpc, hc⟩ | ⟨hpc, hc⟩ | ⟨hpc, hc, hid⟩ | ⟨hpc, hc, hid⟩ | ⟨hpc, hc⟩
    · have hpc' : pcv = Pc.check := hpc
      subst hpc'
      show Inv1 n (if (s.accounts.length : Int) ≥ s.count then
          { s with workers := s.workers.set 0 ⟨Pc.done, idv⟩ }
        else { s with workers := s.workers.set 0 ⟨Pc.read, idv⟩ })
      split
      · exact ⟨hcount, hacc, ⟨Pc.done, idv⟩, hset _,
          Or.inr (Or.inr (Or.inr (Or.inr ⟨rfl, hc⟩)))⟩
      · exact ⟨hcount, hacc, ⟨Pc.read, idv⟩, hset _, Or.inr (Or.inl ⟨rfl, hc⟩)⟩
    · have hpc' : pcv = Pc.read := hpc
      subst hpc'
      exact ⟨hcount, hacc, ⟨Pc.inc, s.created + 1⟩, hset _,
        Or.inr (Or.inr (Or.inl ⟨rfl, hc, rfl⟩))⟩
    · have hpc' : pcv = Pc.inc := hpc
      subst hpc'
      exact ⟨hcount, hacc, ⟨Pc.append, idv⟩, hset _,
        Or.inr (Or.inr (Or.inr (Or.inl ⟨rfl, by rw [hc], hid⟩)))⟩
    · have hpc' : pcv = Pc.append := hpc
      subst hpc'
      have hidv : idv = s.accounts.length + 1 := by
        rw [show idv = s.created from hid, hc]
      have hacc' : s.accounts ++ [idv] =
          idSeq ((s.accounts ++ [idv]).length) := by
        rw [List.length_append]
        simp only [List.length_cons, List.length_nil]
        rw [idSeq_concat, ← hacc, hidv]
      refine ⟨hcount, hacc', ⟨Pc.check, idv⟩, hset _, Or.inl ⟨rfl, ?_⟩⟩
      show s.created = (s.accounts ++ [idv]).length
      rw [hc, List.length_append]
      simp
    · have hpc' : pcv = Pc.done := hpc
      subst hpc'
      exact ⟨hcount, hacc, ⟨Pc.done, idv⟩, hws,
        Or.inr (Or.inr (Or.inr (Or.inr ⟨rfl, hc⟩)))⟩

theorem Inv1_run (n : Int) (sched : List Nat) :
    ∀ s, Inv1 n s → Inv1 n (run s sched) := by
  induction sched with
  | nil => intro s h; exact h
  | cons i t ih => intro s h; exact ih (step s i) (Inv1_step n s i h)

theorem Inv1_init (n : Int) : Inv1 n (init n 1) :=
  ⟨rfl, rfl, ⟨Pc.check, 0⟩, rfl, Or.inl ⟨rfl, rfl⟩⟩

/-! ### C2 -/
/-- C2 (amended). Every record carries an account id of the form
`{service}_acc_{seven-digit zero-padded sequence number}` — but the sequence
number is read from the creator's counter OUTSIDE the lock (only the
increment is locked), so concurrent workers can read the same value and
produce colliding account ids. With a single worker the ids are exactly
`1, 2, …, count` in order: pairwise distinct, each padded to exactly seven
digits. -/
theorem create_accounts_single_worker_ids (n : Int) (sched : List Nat)
    (service : String) (h0 : 0 ≤ n) (hmax : n ≤ 1000)
    (hdone : allDone (run (init n 1) sched) = true) :
    (run (init n 1) sched).accounts = List.range' 1 n.toNat ∧
    ((run (init n 1) sched).accounts.map (account_id service)).Nodup ∧
    (∀ m ∈ (run (init n 1) sched).accounts, (pad7 m).length = 7) := by
  obtain ⟨hl, hu⟩ := run_length_bounds n 1 sched h0 (le_refl 1) hdone
  have hinv := Inv1_run n sched (init n 1) (Inv1_init n)
  have hlenN : (run (init n 1) sched).accounts.length = n.toNat := by
    simp only [Nat.cast_one] at hu
    omega
  have hacc := hinv.hacc
  rw [hlenN] at hacc
  refine ⟨hacc, ?_, ?_⟩
  · rw [hacc]
    exact List.Nodup.map (account_id_injective service)
      (List.nodup_range' 1 n.toNat)
  · intro m hm
    rw [hacc] at hm
    have hb := List.mem_range'_1.mp hm
    apply pad7_length
    have h7 : (10 : Nat) ^ 7 = 10000000 := by norm_num
    omega

/-- C2 witness: a single worker creating two accounts to completion — the ids
are `[1, 2]`, mapped to distinct, 7-digit-padded account id strings. -/
theorem create_accounts_single_worker_ids_witness :
    (run (init 2 1) (List.replicate 9 0)).accounts = List.range' 1 (2 : Int).toNat ∧
    ((run (init 2 1) (List.replicate 9 0)).accounts.map (account_id "custom")).Nodup ∧
    (∀ m ∈ (run (init 2 1) (List.replicate 9 0)).accounts, (pad7 m).length = 7) :=
  create_accounts_single_worker_ids 2 (List.replicate 9 0) "custom" (by decide)
    (by decide) (by decide)
